import Mathlib

set_option linter.unusedVariables false

/-!
Verification of the Trading Dashboard matching-and-aggregation pipeline.

Shallow embedding of:
  * `app/services/fifo_engine.py` (dual-queue FIFO lot matching),
  * `app/services/metrics_calculator.py` (daily P&L series, aggregates),
  * `app/services/enhanced_metrics.py` (streak statistics),
  * the record shapes of `app/models/trade.py` and `app/models/metrics.py`.

Conventions of the embedding:
  * Python `Decimal` values (quantities, prices, P&L) become `ℚ`; the exact
    decimal arithmetic of the source is exact rational arithmetic here, and
    `Decimal.quantize(..., ROUND_HALF_UP)` becomes an explicit rounding
    function (`ROUND_HALF_UP` rounds ties away from zero).
  * Timezone-aware instants (`datetime`) become `ℤ`, an abstract totally
    ordered time axis.  The library conversion
    `ts.astimezone(EST).date()` is not code of this repository (pytz /
    datetime); it is kept abstract as a parameter `estDate : ℤ → ℤ` mapping
    an instant to its EST calendar day, and likewise
    `weekday_names[ts.astimezone(EST).weekday()]` as `wd : ℤ → String`.
    Calendar dates are `ℤ` day numbers (successive days differ by 1).
  * UUIDs become `ℕ`, `Optional[str]` becomes `Option String`.
  * Python dictionaries keyed by symbol become total functions
    `String → List _`, matching `defaultdict(deque)` (missing key = empty).
  * Dictionaries used only for grouping (daily totals, per-symbol P&L) are
    embedded by their observable content: the list of distinct keys in
    first-occurrence order plus an aggregation function per key.
-/

/-- `Side` of a normalized trade (`side` column, validated upstream to be
`"BUY"` or `"SELL"`). -/
inductive Side where
  | BUY : Side
  | SELL : Side
deriving DecidableEq, Repr

/-- Position type of a closed lot (`position_type` column, `"LONG"` or
`"SHORT"`). -/
inductive PosType where
  | LONG : PosType
  | SHORT : PosType
deriving DecidableEq, Repr

/-- `NormalizedTrade` from `app/models/trade.py` (the fields the engine
reads; DB metadata columns such as `created_at` and `ingest_job_id` are
omitted). -/
structure NormalizedTrade where
  id : ℕ
  account_id : Option String
  symbol : String
  side : Side
  quantity : ℚ
  price : ℚ
  executed_at : ℤ
  notes : Option String
deriving DecidableEq, Repr

/-- `ClosedLot` from `app/models/trade.py` (the fields the engine writes;
the DB-generated `id` and `created_at` are omitted). -/
structure ClosedLot where
  account_id : Option String
  symbol : String
  position_type : PosType
  open_trade_id : ℕ
  open_quantity : ℚ
  open_price : ℚ
  open_executed_at : ℤ
  close_trade_id : ℕ
  close_quantity : ℚ
  close_price : ℚ
  close_executed_at : ℤ
  realized_pnl : ℚ
deriving DecidableEq, Repr

/-- Python `Decimal.quantize` with `ROUND_HALF_UP` at `n` fractional
digits: round to a multiple of `10⁻ⁿ`, ties away from zero. -/
def roundHalfUpAt (x : ℚ) (n : ℕ) : ℚ :=
  if 0 ≤ x then (⌊x * 10 ^ n + 1 / 2⌋ : ℚ) / 10 ^ n
  else -((⌊-x * 10 ^ n + 1 / 2⌋ : ℚ) / 10 ^ n)

/-- `value.quantize(Decimal('0.01'), rounding=ROUND_HALF_UP)`. -/
def quantize2 (x : ℚ) : ℚ := roundHalfUpAt x 2

/-- `value.quantize(Decimal('0.0001'), rounding=ROUND_HALF_UP)`. -/
def quantize4 (x : ℚ) : ℚ := roundHalfUpAt x 4

/-- `FIFOEngine._create_closed_lot` (fifo_engine.py lines 157–198): build a
`ClosedLot`, computing P&L from the open/close prices by position type and
rounding half-up to cents once, here. -/
def create_closed_lot (open_trade close_trade : NormalizedTrade)
    (quantity : ℚ) (position_type : PosType) : ClosedLot :=
  let open_price := open_trade.price
  let close_price := close_trade.price
  let pnl :=
    match position_type with
    | PosType.LONG => (close_price - open_price) * quantity
    | PosType.SHORT => (open_price - close_price) * quantity
  { account_id := open_trade.account_id
    symbol := open_trade.symbol
    position_type := position_type
    open_trade_id := open_trade.id
    open_quantity := quantity
    open_price := open_price
    open_executed_at := open_trade.executed_at
    close_trade_id := close_trade.id
    close_quantity := quantity
    close_price := close_price
    close_executed_at := close_trade.executed_at
    realized_pnl := quantize2 pnl }

/-- `FIFOEngine._match_against_queue` (fifo_engine.py lines 102–155).
Returns the closed lots emitted (in emission order), the queue after
matching, and the remaining unmatched quantity.  The source's `while`
loop runs again after updating the head entry in place only when
`remaining > 0`; in that branch `match_qty = min remaining open_qty`
equalled `remaining` (otherwise the head would have reached zero and been
popped), so the loop in fact exits — the embedding returns directly
there. -/
def match_against_queue (trade : NormalizedTrade) (quantity : ℚ)
    (queue : List (NormalizedTrade × ℚ)) (position_type : PosType) :
    List ClosedLot × List (NormalizedTrade × ℚ) × ℚ :=
  match queue with
  | [] => ([], [], quantity)
  | (open_trade, open_qty) :: rest =>
    if 0 < quantity then
      let match_qty := min quantity open_qty
      let lot := create_closed_lot open_trade trade match_qty position_type
      let remaining := quantity - match_qty
      let open_left := open_qty - match_qty
      if open_left = 0 then
        let tail := match_against_queue trade remaining rest position_type
        (lot :: tail.1, tail.2.1, tail.2.2)
      else
        ([lot], (open_trade, open_left) :: rest, remaining)
    else
      ([], queue, quantity)

/-- Mutable state of a `FIFOEngine` instance: the two per-symbol queue
maps (`defaultdict(deque)`, embedded as total functions with empty-list
default) and the accumulated closed-lot list. -/
structure EngineState where
  long_queues : String → List (NormalizedTrade × ℚ)
  short_queues : String → List (NormalizedTrade × ℚ)
  closed_lots : List ClosedLot

/-- A freshly constructed engine (`FIFOEngine.__init__`). -/
def emptyEngineState : EngineState :=
  { long_queues := fun _ => []
    short_queues := fun _ => []
    closed_lots := [] }

/-- `FIFOEngine._process_trade` (fifo_engine.py lines 65–100): a BUY first
closes SHORT entries, any positive remainder opens a LONG entry; a SELL is
symmetric. -/
def process_trade (state : EngineState) (trade : NormalizedTrade) : EngineState :=
  match trade.side with
  | Side.BUY =>
    let m := match_against_queue trade trade.quantity
      (state.short_queues trade.symbol) PosType.SHORT
    let state1 : EngineState :=
      { state with
        closed_lots := state.closed_lots ++ m.1
        short_queues := Function.update state.short_queues trade.symbol m.2.1 }
    if 0 < m.2.2 then
      { state1 with
        long_queues := Function.update state1.long_queues trade.symbol
          (state1.long_queues trade.symbol ++ [(trade, m.2.2)]) }
    else state1
  | Side.SELL =>
    let m := match_against_queue trade trade.quantity
      (state.long_queues trade.symbol) PosType.LONG
    let state1 : EngineState :=
      { state with
        closed_lots := state.closed_lots ++ m.1
        long_queues := Function.update state.long_queues trade.symbol m.2.1 }
    if 0 < m.2.2 then
      { state1 with
        short_queues := Function.update state1.short_queues trade.symbol
          (state1.short_queues trade.symbol ++ [(trade, m.2.2)]) }
    else state1

/-- `FIFOEngine.process_trades` (fifo_engine.py lines 38–63): clears all
three pieces of engine state (both queue maps and the closed-lot list),
then processes each trade in input order.  Returns the engine's final
state together with the returned closed-lot list.  The incoming `state`
is the instance's state at call time; the reset makes the result
independent of it. -/
def process_trades (state : EngineState) (trades : List NormalizedTrade) :
    EngineState × List ClosedLot :=
  let reset := emptyEngineState
  let final := trades.foldl process_trade reset
  (final, final.closed_lots)

/-- `PerDayPnL` from `app/models/metrics.py` (the fields the calculator
writes; DB `id` and timestamps omitted).  `date` is an EST calendar day
number. -/
structure PerDayPnL where
  account_id : Option String
  date : ℤ
  daily_pnl : ℚ
  cumulative_pnl : ℚ
  lots_closed : ℕ
deriving DecidableEq, Repr

/-- Default row used with `List.getD` in index-based statements. -/
def defaultRow : PerDayPnL :=
  { account_id := none, date := 0, daily_pnl := 0, cumulative_pnl := 0, lots_closed := 0 }

/-- `Aggregate` from `app/models/metrics.py` (the fields
`calculate_aggregates` writes). -/
structure Aggregate where
  account_id : Option String
  total_realized_pnl : ℚ
  total_lots_closed : ℕ
  total_trades : ℕ
  winning_lots : ℕ
  losing_lots : ℕ
  total_gains : ℚ
  total_losses : ℚ
  win_rate : Option ℚ
  profit_factor : Option ℚ
  average_gain : Option ℚ
  average_loss : Option ℚ
  best_symbol : Option String
  best_symbol_pnl : Option ℚ
  worst_symbol : Option String
  worst_symbol_pnl : Option ℚ
  best_weekday : Option String
  best_weekday_pnl : Option ℚ
  worst_weekday : Option String
  worst_weekday_pnl : Option ℚ
  first_trade_date : Option ℤ
  last_trade_date : Option ℤ
deriving DecidableEq, Repr

/-- `Aggregate(account_id=...)` with every other column at its declared
default: numeric NOT NULL columns default to 0, nullable columns to
None. -/
def emptyAggregate (acct : Option String) : Aggregate :=
  { account_id := acct
    total_realized_pnl := 0
    total_lots_closed := 0
    total_trades := 0
    winning_lots := 0
    losing_lots := 0
    total_gains := 0
    total_losses := 0
    win_rate := none
    profit_factor := none
    average_gain := none
    average_loss := none
    best_symbol := none
    best_symbol_pnl := none
    worst_symbol := none
    worst_symbol_pnl := none
    best_weekday := none
    best_weekday_pnl := none
    worst_weekday := none
    worst_weekday_pnl := none
    first_trade_date := none
    last_trade_date := none }

/-- The EST calendar day of a lot's close (`lot.close_executed_at
.astimezone(EST).date()`), with the library conversion abstracted as
`estDate`. -/
def lotCloseDate (estDate : ℤ → ℤ) (lot : ClosedLot) : ℤ :=
  estDate lot.close_executed_at

/-- Total realized P&L of the lots closing on day `d` (the value part of
`daily_pnl_dict[d]`). -/
def dailyTotal (estDate : ℤ → ℤ) (lots : List ClosedLot) (d : ℤ) : ℚ :=
  ((lots.filter (fun l => lotCloseDate estDate l == d)).map (fun l => l.realized_pnl)).sum

/-- Number of lots closing on day `d` (the count part of
`daily_pnl_dict[d]`). -/
def dailyCount (estDate : ℤ → ℤ) (lots : List ClosedLot) (d : ℤ) : ℕ :=
  (lots.filter (fun l => lotCloseDate estDate l == d)).length

/-- `min(keys)` over a list of day numbers (0 on the empty list, which the
source never reaches). -/
def listMinInt : List ℤ → ℤ
  | [] => 0
  | d :: ds => ds.foldl min d

/-- `max(keys)` over a list of day numbers. -/
def listMaxInt : List ℤ → ℤ
  | [] => 0
  | d :: ds => ds.foldl max d

/-- The calendar days from `lo` to `hi` inclusive, ascending (the
`while current_date <= max_date` gap-filling walk); empty when
`hi < lo`. -/
def dateRange (lo hi : ℤ) : List ℤ :=
  (List.range (hi + 1 - lo).toNat).map (fun i : ℕ => lo + (i : ℤ))

/-- The final loop of `generate_daily_pnl_series`: walk the sorted dates
accumulating the running cumulative total, emitting one `PerDayPnL` row
per date with both monetary fields quantized to cents. -/
def buildRows (acct : Option String) (daily : ℤ → ℚ × ℕ) :
    List ℤ → ℚ → List PerDayPnL
  | [], _ => []
  | d :: ds, cum =>
    let t := daily d
    let cum1 := cum + t.1
    { account_id := acct
      date := d
      daily_pnl := quantize2 t.1
      cumulative_pnl := quantize2 cum1
      lots_closed := t.2 } :: buildRows acct daily ds cum1

/-- `MetricsCalculator.generate_daily_pnl_series` (metrics_calculator.py
lines 32–113).  The date-keyed dicts are embedded by their key set: with
gap filling the sorted key set is every day from the minimum to the
maximum activity date (the fill loop inserts exactly the missing ones);
without it, the distinct activity dates in ascending order. -/
def generate_daily_pnl_series (estDate : ℤ → ℤ) (acct : Option String)
    (closed_lots : List ClosedLot) (fill_gaps : Bool) : List PerDayPnL :=
  match closed_lots with
  | [] => []
  | _ :: _ =>
    let dates := closed_lots.map (lotCloseDate estDate)
    let min_date := listMinInt dates
    let max_date := listMaxInt dates
    let sorted_dates :=
      if fill_gaps then dateRange min_date max_date
      else List.insertionSort (· ≤ ·) dates.dedup
    buildRows acct
      (fun d => (dailyTotal estDate closed_lots d, dailyCount estDate closed_lots d))
      sorted_dates 0

/-- The Python rendering pattern `x.quantize(...) if x else None` applied
to an `Optional[Decimal]`: `None` stays `None`, a zero value is falsy and
also becomes `None`, anything else is rounded. -/
def round_if_truthy (q : ℚ → ℚ) : Option ℚ → Option ℚ
  | none => none
  | some x => if x = 0 then none else some (q x)

/-- Distinct elements of a list in first-occurrence order: the key
iteration order of a Python dict populated by `d[key] += ...`. -/
def firstOccurrences (seen : List String) : List String → List String
  | [] => []
  | a :: as =>
    if a ∈ seen then firstOccurrences seen as
    else a :: firstOccurrences (a :: seen) as

/-- Python `max(items, key=lambda x: x[1])` on an association list: the
first entry with the greatest value (later entries replace only on a
strictly greater value). -/
def maxBySnd {α : Type} : List (α × ℚ) → Option (α × ℚ)
  | [] => none
  | x :: xs => some (xs.foldl (fun best y => if best.2 < y.2 then y else best) x)

/-- Python `min(items, key=lambda x: x[1])` on an association list. -/
def minBySnd {α : Type} : List (α × ℚ) → Option (α × ℚ)
  | [] => none
  | x :: xs => some (xs.foldl (fun best y => if y.2 < best.2 then y else best) x)

/-- Summed realized P&L of the lots with symbol `s` (the entry
`symbol_pnl[s]`). -/
def symbolPnl (lots : List ClosedLot) (s : String) : ℚ :=
  ((lots.filter (fun l => l.symbol == s)).map (fun l => l.realized_pnl)).sum

/-- Summed realized P&L of the lots whose close falls on weekday `w`
(the entry `weekday_pnl[w]`); `wd` abstracts
`weekday_names[ts.astimezone(EST).weekday()]`. -/
def weekdayPnl (wd : ℤ → String) (lots : List ClosedLot) (w : String) : ℚ :=
  ((lots.filter (fun l => wd l.close_executed_at == w)).map (fun l => l.realized_pnl)).sum

/-- `MetricsCalculator.calculate_aggregates` (metrics_calculator.py lines
115–279). -/
def calculate_aggregates (wd : ℤ → String) (acct : Option String)
    (closed_lots : List ClosedLot) (per_day_pnl : List PerDayPnL) : Aggregate :=
  match closed_lots with
  | [] => emptyAggregate acct
  | _ :: _ =>
    let total_pnl := (closed_lots.map (fun l => l.realized_pnl)).sum
    let total_lots := closed_lots.length
    let winning := closed_lots.filter (fun l => decide (0 < l.realized_pnl))
    let losing := closed_lots.filter (fun l => decide (l.realized_pnl < 0))
    let total_gains := (winning.map (fun l => l.realized_pnl)).sum
    let total_losses := (losing.map (fun l => l.realized_pnl)).sum
    let win_rate : Option ℚ :=
      if 0 < total_lots then some ((winning.length : ℚ) / (total_lots : ℚ)) else none
    let profit_factor : Option ℚ :=
      if total_losses < 0 then some (total_gains / |total_losses|) else none
    let avg_gain : Option ℚ :=
      if winning.length ≠ 0 then some (total_gains / (winning.length : ℚ)) else none
    let avg_loss : Option ℚ :=
      if losing.length ≠ 0 then some (total_losses / (losing.length : ℚ)) else none
    let symbol_items :=
      (firstOccurrences [] (closed_lots.map (fun l => l.symbol))).map
        (fun s => (s, symbolPnl closed_lots s))
    let best_sym := maxBySnd symbol_items
    let worst_sym := minBySnd symbol_items
    let weekday_items :=
      (firstOccurrences [] (closed_lots.map (fun l => wd l.close_executed_at))).map
        (fun w => (w, weekdayPnl wd closed_lots w))
    let best_wd := maxBySnd weekday_items
    let worst_wd := minBySnd weekday_items
    { account_id := acct
      total_realized_pnl := quantize2 total_pnl
      total_lots_closed := total_lots
      total_trades := total_lots * 2
      winning_lots := winning.length
      losing_lots := losing.length
      total_gains := quantize2 total_gains
      total_losses := quantize2 total_losses
      win_rate := round_if_truthy quantize4 win_rate
      profit_factor := round_if_truthy quantize2 profit_factor
      average_gain := round_if_truthy quantize2 avg_gain
      average_loss := round_if_truthy quantize2 avg_loss
      best_symbol := best_sym.map Prod.fst
      best_symbol_pnl := round_if_truthy quantize2 (best_sym.map Prod.snd)
      worst_symbol := worst_sym.map Prod.fst
      worst_symbol_pnl := round_if_truthy quantize2 (worst_sym.map Prod.snd)
      best_weekday := best_wd.map Prod.fst
      best_weekday_pnl := round_if_truthy quantize2 (best_wd.map Prod.snd)
      worst_weekday := worst_wd.map Prod.fst
      worst_weekday_pnl := round_if_truthy quantize2 (worst_wd.map Prod.snd)
      first_trade_date := per_day_pnl.head?.map (fun r => r.date)
      last_trade_date := per_day_pnl.getLast?.map (fun r => r.date) }

/-- The dictionary returned by
`EnhancedMetricsCalculator.calculate_streaks`. -/
structure StreakStats where
  current_streak : ℤ
  longest_win_streak : ℕ
  longest_loss_streak : ℕ
deriving DecidableEq, Repr

/-- The five loop variables of `calculate_streaks`
(enhanced_metrics.py lines 130–134). -/
structure StreakAcc where
  current_streak : ℤ
  longest_win_streak : ℕ
  longest_loss_streak : ℕ
  current_win_streak : ℕ
  current_loss_streak : ℕ
deriving DecidableEq, Repr

/-- One iteration of the `calculate_streaks` loop
(enhanced_metrics.py lines 136–150).  In the breakeven branch only the
two run counters are cleared; `current_streak` is left as it was. -/
def streakStep (s : StreakAcc) (lot : ClosedLot) : StreakAcc :=
  if 0 < lot.realized_pnl then
    let cw := s.current_win_streak + 1
    { s with
      current_win_streak := cw
      current_loss_streak := 0
      current_streak := (cw : ℤ)
      longest_win_streak := max s.longest_win_streak cw }
  else if lot.realized_pnl < 0 then
    let cl := s.current_loss_streak + 1
    { s with
      current_loss_streak := cl
      current_win_streak := 0
      current_streak := -(cl : ℤ)
      longest_loss_streak := max s.longest_loss_streak cl }
  else
    { s with current_win_streak := 0, current_loss_streak := 0 }

/-- Close-time ordering on lots, used by `sorted(lots, key=lambda x:
x.close_executed_at)`. -/
def closeLE (a b : ClosedLot) : Prop :=
  a.close_executed_at ≤ b.close_executed_at

instance : DecidableRel closeLE := fun a b => Int.decLe _ _

/-- Stable sort of lots by close time. -/
def sortLotsByClose (lots : List ClosedLot) : List ClosedLot :=
  List.insertionSort closeLE lots

/-- `EnhancedMetricsCalculator.calculate_streaks`
(enhanced_metrics.py lines 125–156). -/
def calculate_streaks (lots : List ClosedLot) : StreakStats :=
  let final := (sortLotsByClose lots).foldl streakStep ⟨0, 0, 0, 0, 0⟩
  { current_streak := final.current_streak
    longest_win_streak := final.longest_win_streak
    longest_loss_streak := final.longest_loss_streak }

/-- A rational with at most 2 fractional decimal digits — the value set of
the NUMERIC(18, 2) `realized_pnl` column, and of everything `quantize2`
produces. -/
def IsCenti (x : ℚ) : Prop :=
  ∃ k : ℤ, x = (k : ℚ) / 100

/-- Concrete trades for the two-BUYs-then-SELL scenario. -/
def tradeB1 : NormalizedTrade :=
  { id := 1, account_id := none, symbol := "AAPL", side := Side.BUY,
    quantity := 10, price := 100, executed_at := 1, notes := none }

/-- Second BUY of the scenario, at a different price. -/
def tradeB2 : NormalizedTrade :=
  { id := 2, account_id := none, symbol := "AAPL", side := Side.BUY,
    quantity := 5, price := 101, executed_at := 2, notes := none }

/-- Closing SELL of the scenario, large enough to close both BUYs. -/
def tradeS : NormalizedTrade :=
  { id := 3, account_id := none, symbol := "AAPL", side := Side.SELL,
    quantity := 20, price := 102, executed_at := 3, notes := none }

/-- SELL 100@160.00 opening a short. -/
def tradeSell160 : NormalizedTrade :=
  { id := 11, account_id := none, symbol := "TSLA", side := Side.SELL,
    quantity := 100, price := 160, executed_at := 1, notes := none }

/-- BUY 100@150.00 closing the short. -/
def tradeBuy150 : NormalizedTrade :=
  { id := 12, account_id := none, symbol := "TSLA", side := Side.BUY,
    quantity := 100, price := 150, executed_at := 2, notes := none }

/-- BUY 3@100.33 for the rounding example. -/
def tradeRbuy : NormalizedTrade :=
  { id := 13, account_id := none, symbol := "MSFT", side := Side.BUY,
    quantity := 3, price := 100.33, executed_at := 1, notes := none }

/-- SELL 3@100.67 for the rounding example. -/
def tradeRsell : NormalizedTrade :=
  { id := 14, account_id := none, symbol := "MSFT", side := Side.SELL,
    quantity := 3, price := 100.67, executed_at := 2, notes := none }

/-- A closed lot with chosen symbol, P&L and close instant (other fields
fixed), for concrete metric inputs. -/
def exLot (sym : String) (pnl : ℚ) (closeAt : ℤ) : ClosedLot :=
  { account_id := none, symbol := sym, position_type := PosType.LONG,
    open_trade_id := 0, open_quantity := 1, open_price := 1, open_executed_at := 0,
    close_trade_id := 1, close_quantity := 1, close_price := 1,
    close_executed_at := closeAt, realized_pnl := pnl }

/-- Single losing lot: 0 winners out of 1, so the claimed win rate is 0. -/
def loseLotC3 : ClosedLot := exLot "AAPL" (-5) 1

/-- Single losing lot: gains 0, losses −7.5, so the claimed profit factor
is 0. -/
def loseLotC4 : ClosedLot := exLot "TSLA" (-7.5) 1

/-- Winning lot closed at time 1. -/
def winLotC5 : ClosedLot := exLot "AAPL" 10 1

/-- Breakeven lot closed at time 2, after the win. -/
def beLotC5 : ClosedLot := exLot "AAPL" 0 2

/-- Lot closing on day 1 with P&L 1.50. -/
def lotC6a : ClosedLot := exLot "AAPL" 1.5 1

/-- Lot closing on day 3 with P&L 2.25. -/
def lotC6b : ClosedLot := exLot "AAPL" 2.25 3

/-- Lot closing on day 1 with P&L 1000 (gap-filling example). -/
def lotC7a : ClosedLot := exLot "AAPL" 1000 1

/-- Lot closing on day 3 with P&L 500 (gap-filling example). -/
def lotC7b : ClosedLot := exLot "TSLA" 500 3

/-- The P&L contract of a closed lot: `realized_pnl` is the position-type
formula over its own open/close prices and matched quantity, rounded
half-up to cents. -/
def pnlFormulaOK (lot : ClosedLot) : Prop :=
  (lot.position_type = PosType.LONG →
     lot.realized_pnl = quantize2 ((lot.close_price - lot.open_price) * lot.open_quantity)) ∧
  (lot.position_type = PosType.SHORT →
     lot.realized_pnl = quantize2 ((lot.open_price - lot.close_price) * lot.open_quantity))

/-- For every symbol, at most one of the two direction queues is
non-empty. -/
def queuesExclusive (st : EngineState) : Prop :=
  ∀ sym : String, st.long_queues sym = [] ∨ st.short_queues sym = []

/-- A predicate preserved by every step of a fold holds of the fold's
result. -/
theorem foldl_preserves {σ α : Type} (f : σ → α → σ) (P : σ → Prop)
    (step : ∀ s a, P s → P (f s a)) :
    ∀ (l : List α) (s : σ), P s → P (l.foldl f s) := by
  intro l
  induction l with
  | nil => intro s hs; simpa using hs
  | cons a as ih => intro s hs; simpa using ih (f s a) (step s a hs)

/-- Every lot `_create_closed_lot` builds satisfies the P&L formula. -/
theorem create_closed_lot_pnl (o c : NormalizedTrade) (q : ℚ) (pt : PosType) :
    pnlFormulaOK (create_closed_lot o c q pt) := by
  cases pt <;> simp [create_closed_lot, pnlFormulaOK]

/-- Every lot emitted by `_match_against_queue` satisfies the P&L
formula. -/
theorem match_against_queue_pnl (trade : NormalizedTrade) (position_type : PosType) :
    ∀ (queue : List (NormalizedTrade × ℚ)) (quantity : ℚ),
      ∀ lot ∈ (match_against_queue trade quantity queue position_type).1,
        pnlFormulaOK lot := by
  intro queue
  induction queue with
  | nil => intro q lot h; simp [match_against_queue] at h
  | cons e rest ih =>
    obtain ⟨open_trade, open_qty⟩ := e
    intro q lot h
    simp only [match_against_queue] at h
    by_cases hq : 0 < q
    · rw [if_pos hq] at h
      by_cases hz : open_qty - min q open_qty = 0
      · rw [if_pos hz] at h
        rcases List.mem_cons.mp h with rfl | h2
        · exact create_closed_lot_pnl _ _ _ _
        · exact ih _ lot h2
      · rw [if_neg hz] at h
        rcases List.mem_singleton.mp h with rfl
        exact create_closed_lot_pnl _ _ _ _
    · rw [if_neg hq] at h
      simp at h

/-- `_process_trade` preserves the P&L formula on the accumulated
closed-lot list. -/
theorem process_trade_pnl (st : EngineState) (t : NormalizedTrade)
    (h : ∀ lot ∈ st.closed_lots, pnlFormulaOK lot) :
    ∀ lot ∈ (process_trade st t).closed_lots, pnlFormulaOK lot := by
  intro lot hmem
  unfold process_trade at hmem
  split at hmem <;>
  · simp only [apply_ite EngineState.closed_lots, ite_self, List.mem_append] at hmem
    rcases hmem with h1 | h2
    · exact h lot h1
    · exact match_against_queue_pnl _ _ _ _ lot h2

/-- When `_match_against_queue` returns a positive remainder, the queue it
leaves behind is empty (the loop only stops early when the remainder has
reached zero). -/
theorem match_against_queue_rem_pos (trade : NormalizedTrade) (pt : PosType) :
    ∀ (queue : List (NormalizedTrade × ℚ)) (q : ℚ),
      0 < (match_against_queue trade q queue pt).2.2 →
      (match_against_queue trade q queue pt).2.1 = [] := by
  intro queue
  induction queue with
  | nil => intro q h; rfl
  | cons e rest ih =>
    obtain ⟨ot, oq⟩ := e
    intro q h
    simp only [match_against_queue] at h ⊢
    by_cases hq : 0 < q
    · rw [if_pos hq] at h ⊢
      by_cases hz : oq - min q oq = 0
      · rw [if_pos hz] at h ⊢; exact ih _ h
      · rw [if_neg hz] at h ⊢
        exfalso
        have hmin : min q oq = q := by
          rcases min_choice q oq with hc | hc
          · exact hc
          · exact absurd (by rw [hc]; ring) hz
        rw [hmin] at h
        simp at h
    · rw [if_neg hq] at h ⊢
      exact absurd h hq

/-- `_process_trade` preserves the one-open-direction-per-symbol
invariant: a remainder is pushed only after the opposing queue was
drained. -/
theorem process_trade_exclusive (st : EngineState) (t : NormalizedTrade)
    (h : queuesExclusive st) : queuesExclusive (process_trade st t) := by
  cases ht : t.side
  case BUY =>
    simp only [process_trade, ht]
    by_cases hrem :
        0 < (match_against_queue t t.quantity (st.short_queues t.symbol) PosType.SHORT).2.2
    · rw [if_pos hrem]
      intro sym
      by_cases hsy : sym = t.symbol
      · subst hsy
        right
        simp only [Function.update_same]
        exact match_against_queue_rem_pos t PosType.SHORT _ _ hrem
      · rcases h sym with h1 | h2
        · left; simpa [Function.update_noteq hsy] using h1
        · right; simpa [Function.update_noteq hsy] using h2
    · rw [if_neg hrem]
      intro sym
      by_cases hsy : sym = t.symbol
      · subst hsy
        rcases h t.symbol with h1 | h2
        · left; simpa using h1
        · right
          simp only [Function.update_same]
          rw [h2]
          rfl
      · rcases h sym with h1 | h2
        · left; simpa [Function.update_noteq hsy] using h1
        · right; simpa [Function.update_noteq hsy] using h2
  case SELL =>
    simp only [process_trade, ht]
    by_cases hrem :
        0 < (match_against_queue t t.quantity (st.long_queues t.symbol) PosType.LONG).2.2
    · rw [if_pos hrem]
      intro sym
      by_cases hsy : sym = t.symbol
      · subst hsy
        left
        simp only [Function.update_same]
        exact match_against_queue_rem_pos t PosType.LONG _ _ hrem
      · rcases h sym with h1 | h2
        · left; simpa [Function.update_noteq hsy] using h1
        · right; simpa [Function.update_noteq hsy] using h2
    · rw [if_neg hrem]
      intro sym
      by_cases hsy : sym = t.symbol
      · subst hsy
        rcases h t.symbol with h1 | h2
        · left
          simp only [Function.update_same]
          rw [h1]
          rfl
        · right; simpa using h2
      · rcases h sym with h1 | h2
        · left; simpa [Function.update_noteq hsy] using h1
        · right; simpa [Function.update_noteq hsy] using h2

/-- Rounding half-up to cents is the identity on values that are already
whole cents. -/
theorem quantize2_centi {x : ℚ} (h : IsCenti x) : quantize2 x = x := by
  obtain ⟨k, rfl⟩ := h
  unfold quantize2 roundHalfUpAt
  have hmul : (k : ℚ) / 100 * 10 ^ 2 = (k : ℚ) := by
    field_simp
    exact Or.inl (by norm_num)
  by_cases hk : (0 : ℚ) ≤ (k : ℚ) / 100
  · rw [if_pos hk, hmul]
    have hfl : ⌊(k : ℚ) + 1 / 2⌋ = k := by
      rw [add_comm, Int.floor_add_int]
      norm_num
    rw [hfl]
    norm_num
  · rw [if_neg hk]
    have hneg : -((k : ℚ) / 100) * 10 ^ 2 = ((-k : ℤ) : ℚ) := by
      push_cast
      field_simp
      exact Or.inl (by norm_num)
    rw [hneg]
    have hfl : ⌊((-k : ℤ) : ℚ) + 1 / 2⌋ = -k := by
      rw [add_comm, Int.floor_add_int]
      norm_num
    rw [hfl]
    push_cast
    field_simp
    exact Or.inl (by norm_num)

/-- Zero is a whole number of cents. -/
theorem isCenti_zero : IsCenti 0 := ⟨0, by norm_num⟩

/-- Whole-cent values are closed under addition. -/
theorem isCenti_add {x y : ℚ} (hx : IsCenti x) (hy : IsCenti y) : IsCenti (x + y) := by
  obtain ⟨a, rfl⟩ := hx
  obtain ⟨b, rfl⟩ := hy
  exact ⟨a + b, by push_cast; ring⟩

/-- A sum of whole-cent values is a whole number of cents. -/
theorem isCenti_listSum : ∀ l : List ℚ, (∀ x ∈ l, IsCenti x) → IsCenti l.sum := by
  intro l
  induction l with
  | nil => intro _; simpa using isCenti_zero
  | cons x xs ih =>
    intro h
    rw [List.sum_cons]
    exact isCenti_add (h x (by simp)) (ih (fun y hy => h y (by simp [hy])))

/-- A day's total over whole-cent lots is a whole number of cents. -/
theorem dailyTotal_centi (estDate : ℤ → ℤ) (lots : List ClosedLot) (d : ℤ)
    (h : ∀ lot ∈ lots, IsCenti lot.realized_pnl) : IsCenti (dailyTotal estDate lots d) := by
  apply isCenti_listSum
  intro x hx
  rw [List.mem_map] at hx
  obtain ⟨l, hl, rfl⟩ := hx
  exact h l (List.mem_of_mem_filter hl)

/-- `buildRows` emits one row per date. -/
theorem buildRows_length (acct : Option String) (f : ℤ → ℚ × ℕ) :
    ∀ (ds : List ℤ) (cum : ℚ), (buildRows acct f ds cum).length = ds.length := by
  intro ds
  induction ds with
  | nil => intro cum; rfl
  | cons d rest ih => intro cum; simp [buildRows, ih]

/-- The dates of the rows `buildRows` emits are exactly its input dates,
in order. -/
theorem buildRows_map_date (acct : Option String) (f : ℤ → ℚ × ℕ) :
    ∀ (ds : List ℤ) (cum : ℚ),
      (buildRows acct f ds cum).map (fun r => r.date) = ds := by
  intro ds
  induction ds with
  | nil => intro cum; rfl
  | cons d rest ih => intro cum; simp [buildRows, ih]

/-- Every row `buildRows` emits carries its own date's daily total and lot
count. -/
theorem buildRows_mem (acct : Option String) (f : ℤ → ℚ × ℕ) :
    ∀ (ds : List ℤ) (cum : ℚ) (row : PerDayPnL), row ∈ buildRows acct f ds cum →
      row.daily_pnl = quantize2 (f row.date).1 ∧ row.lots_closed = (f row.date).2 := by
  intro ds
  induction ds with
  | nil => intro cum row h; simp [buildRows] at h
  | cons d rest ih =>
    intro cum row h
    simp only [buildRows, List.mem_cons] at h
    rcases h with rfl | h
    · exact ⟨rfl, rfl⟩
    · exact ih _ row h

/-- Index formulas for `buildRows`: the i-th cumulative field is the
rounded running total through position i, the i-th daily field the rounded
i-th day total. -/
theorem buildRows_getD (acct : Option String) (f : ℤ → ℚ × ℕ) :
    ∀ (ds : List ℤ) (cum : ℚ) (i : ℕ), i < ds.length →
      ((buildRows acct f ds cum).getD i defaultRow).cumulative_pnl
          = quantize2 (cum + ((ds.take (i + 1)).map (fun d => (f d).1)).sum) ∧
      ((buildRows acct f ds cum).getD i defaultRow).daily_pnl
          = quantize2 (f (ds.getD i 0)).1 := by
  intro ds
  induction ds with
  | nil => intro cum i h; simp at h
  | cons d rest ih =>
    intro cum i h
    cases i with
    | zero => simp [buildRows]
    | succ j =>
      have hj : j < rest.length := by simpa using h
      simp only [buildRows, List.getD_cons_succ]
      rcases ih (cum + (f d).1) j hj with ⟨h1, h2⟩
      refine ⟨?_, ?_⟩
      · rw [h1]
        congr 1
        simp [List.take_succ_cons, add_assoc]
      · exact h2

/-- Prefix sums over a list step by the element at the prefix boundary. -/
theorem takeSum_succ (g : ℤ → ℚ) :
    ∀ (ds : List ℤ) (i : ℕ), i < ds.length →
      ((ds.take (i + 1)).map g).sum = ((ds.take i).map g).sum + g (ds.getD i 0) := by
  intro ds
  induction ds with
  | nil => intro i h; simp at h
  | cons d rest ih =>
    intro i h
    cases i with
    | zero => simp
    | succ j =>
      have hj : j < rest.length := by simpa using h
      simp only [List.take_succ_cons, List.map_cons, List.sum_cons, List.getD_cons_succ]
      rw [ih j hj]
      ring

/-- Sums of pointwise sums split. -/
theorem sum_map_add (A B : ℤ → ℚ) :
    ∀ ds : List ℤ, (ds.map (fun d => A d + B d)).sum = (ds.map A).sum + (ds.map B).sum := by
  intro ds
  induction ds with
  | nil => simp
  | cons d rest ih =>
    simp only [List.map_cons, List.sum_cons, ih]
    ring

/-- Summing an indicator of a key that does not occur gives zero. -/
theorem sum_map_ite_zero (a : ℤ) (c : ℚ) :
    ∀ ds : List ℤ, a ∉ ds → (ds.map (fun d => if a = d then c else 0)).sum = 0 := by
  intro ds
  induction ds with
  | nil => intro _; simp
  | cons d rest ih =>
    intro h
    have hne : a ≠ d := fun e => h (by simp [e])
    have hrest : a ∉ rest := fun e => h (by simp [e])
    simp only [List.map_cons, List.sum_cons, if_neg hne, ih hrest, zero_add]

/-- Summing an indicator of a key occurring once (no duplicate keys) gives
its value. -/
theorem sum_map_ite_single (a : ℤ) (c : ℚ) :
    ∀ ds : List ℤ, ds.Nodup → a ∈ ds →
      (ds.map (fun d => if a = d then c else 0)).sum = c := by
  intro ds
  induction ds with
  | nil => intro _ h; simp at h
  | cons d rest ih =>
    intro hnd hmem
    rw [List.map_cons, List.sum_cons]
    rcases List.mem_cons.mp hmem with rfl | hmem2
    · rw [if_pos rfl, sum_map_ite_zero a c rest (List.nodup_cons.mp hnd).1, add_zero]
    · have hne : a ≠ d := by
        rintro rfl
        exact (List.nodup_cons.mp hnd).1 hmem2
      rw [if_neg hne, ih (List.nodup_cons.mp hnd).2 hmem2, zero_add]

/-- Grouping lots by a key that lands in a duplicate-free key list and
summing per group totals the whole P&L: day-by-day totals partition the
lot list. -/
theorem sum_over_keys (key : ClosedLot → ℤ) :
    ∀ (lots : List ClosedLot) (ds : List ℤ), ds.Nodup → (∀ l ∈ lots, key l ∈ ds) →
      (ds.map (fun d =>
          ((lots.filter (fun x => key x == d)).map (fun x => x.realized_pnl)).sum)).sum
        = (lots.map (fun x => x.realized_pnl)).sum := by
  intro lots
  induction lots with
  | nil => intro ds _ _; simp
  | cons l rest ih =>
    intro ds hnd hmem
    have expand : (fun d =>
          (((l :: rest).filter (fun x => key x == d)).map (fun x => x.realized_pnl)).sum)
        = fun d => (if key l = d then l.realized_pnl else 0)
            + ((rest.filter (fun x => key x == d)).map (fun x => x.realized_pnl)).sum := by
      funext d
      by_cases hd : key l = d
      · simp [List.filter_cons, hd]
      · simp [List.filter_cons, hd]
    rw [expand, sum_map_add, sum_map_ite_single (key l) l.realized_pnl ds hnd (hmem l (by simp)),
      ih ds hnd (fun x hx => hmem x (by simp [hx]))]
    simp

/-- A min-fold is bounded by its seed. -/
theorem foldl_min_le_init : ∀ (ds : List ℤ) (d : ℤ), ds.foldl min d ≤ d := by
  intro ds
  induction ds with
  | nil => intro d; exact le_refl d
  | cons e rest ih =>
    intro d
    exact le_trans (ih (min d e)) (min_le_left d e)

/-- A min-fold is bounded by every list element. -/
theorem foldl_min_le_mem : ∀ (ds : List ℤ) (d x : ℤ), x ∈ ds → ds.foldl min d ≤ x := by
  intro ds
  induction ds with
  | nil => intro d x h; simp at h
  | cons e rest ih =>
    intro d x h
    rcases List.mem_cons.mp h with rfl | h2
    · exact le_trans (foldl_min_le_init rest (min d x)) (min_le_right d x)
    · exact ih (min d e) x h2

/-- A min-fold returns its seed or some list element. -/
theorem foldl_min_mem : ∀ (ds : List ℤ) (d : ℤ), ds.foldl min d = d ∨ ds.foldl min d ∈ ds := by
  intro ds
  induction ds with
  | nil => intro d; exact Or.inl rfl
  | cons e rest ih =>
    intro d
    rcases ih (min d e) with h | h
    · rcases min_choice d e with hc | hc
      · exact Or.inl (by rw [List.foldl_cons, h, hc])
      · refine Or.inr ?_
        rw [List.foldl_cons, h, hc]
        exact List.mem_cons_self e rest
    · refine Or.inr ?_
      rw [List.foldl_cons]
      exact List.mem_cons_of_mem e h

/-- A max-fold dominates its seed. -/
theorem foldl_max_le_init : ∀ (ds : List ℤ) (d : ℤ), d ≤ ds.foldl max d := by
  intro ds
  induction ds with
  | nil => intro d; exact le_refl d
  | cons e rest ih =>
    intro d
    exact le_trans (le_max_left d e) (ih (max d e))

/-- A max-fold dominates every list element. -/
theorem foldl_max_le_mem : ∀ (ds : List ℤ) (d x : ℤ), x ∈ ds → x ≤ ds.foldl max d := by
  intro ds
  induction ds with
  | nil => intro d x h; simp at h
  | cons e rest ih =>
    intro d x h
    rcases List.mem_cons.mp h with rfl | h2
    · exact le_trans (le_max_right d x) (foldl_max_le_init rest (max d x))
    · exact ih (max d e) x h2

/-- A max-fold returns its seed or some list element. -/
theorem foldl_max_mem : ∀ (ds : List ℤ) (d : ℤ), ds.foldl max d = d ∨ ds.foldl max d ∈ ds := by
  intro ds
  induction ds with
  | nil => intro d; exact Or.inl rfl
  | cons e rest ih =>
    intro d
    rcases ih (max d e) with h | h
    · rcases max_choice d e with hc | hc
      · exact Or.inl (by rw [List.foldl_cons, h, hc])
      · refine Or.inr ?_
        rw [List.foldl_cons, h, hc]
        exact List.mem_cons_self e rest
    · refine Or.inr ?_
      rw [List.foldl_cons]
      exact List.mem_cons_of_mem e h

/-- `min(keys)` is a lower bound of the keys. -/
theorem listMinInt_le (dates : List ℤ) (x : ℤ) (h : x ∈ dates) : listMinInt dates ≤ x := by
  cases dates with
  | nil => simp at h
  | cons d ds =>
    rcases List.mem_cons.mp h with rfl | h2
    · exact foldl_min_le_init ds x
    · exact foldl_min_le_mem ds d x h2

/-- `max(keys)` is an upper bound of the keys. -/
theorem le_listMaxInt (dates : List ℤ) (x : ℤ) (h : x ∈ dates) : x ≤ listMaxInt dates := by
  cases dates with
  | nil => simp at h
  | cons d ds =>
    rcases List.mem_cons.mp h with rfl | h2
    · exact foldl_max_le_init ds x
    · exact foldl_max_le_mem ds d x h2

/-- `min(keys)` of a non-empty key list is attained. -/
theorem listMinInt_mem (dates : List ℤ) (h : dates ≠ []) : listMinInt dates ∈ dates := by
  cases dates with
  | nil => exact absurd rfl h
  | cons d ds =>
    rcases foldl_min_mem ds d with h1 | h1
    · simp [listMinInt, h1]
    · simp [listMinInt, List.mem_cons]
      exact Or.inr (by simpa using h1)

/-- `max(keys)` of a non-empty key list is attained. -/
theorem listMaxInt_mem (dates : List ℤ) (h : dates ≠ []) : listMaxInt dates ∈ dates := by
  cases dates with
  | nil => exact absurd rfl h
  | cons d ds =>
    rcases foldl_max_mem ds d with h1 | h1
    · simp [listMaxInt, h1]
    · simp [listMaxInt, List.mem_cons]
      exact Or.inr (by simpa using h1)

/-- Membership in the inclusive day range. -/
theorem mem_dateRange (lo hi x : ℤ) : x ∈ dateRange lo hi ↔ lo ≤ x ∧ x ≤ hi := by
  simp only [dateRange, List.mem_map, List.mem_range]
  constructor
  · rintro ⟨i, hi2, rfl⟩
    omega
  · rintro ⟨h1, h2⟩
    exact ⟨(x - lo).toNat, by omega, by omega⟩

/-- The inclusive day range has no duplicates. -/
theorem nodup_dateRange (lo hi : ℤ) : (dateRange lo hi).Nodup := by
  refine List.Nodup.map ?_ (List.nodup_range _)
  intro a b hab
  dsimp only at hab
  omega

/-- Unfolding of `generate_daily_pnl_series` on a non-empty lot list. -/
theorem generate_cons (estDate : ℤ → ℤ) (acct : Option String)
    (l : ClosedLot) (ls : List ClosedLot) (fg : Bool) :
    generate_daily_pnl_series estDate acct (l :: ls) fg =
      buildRows acct
        (fun d => (dailyTotal estDate (l :: ls) d, dailyCount estDate (l :: ls) d))
        (if fg then
            dateRange (listMinInt ((l :: ls).map (lotCloseDate estDate)))
                      (listMaxInt ((l :: ls).map (lotCloseDate estDate)))
          else List.insertionSort (· ≤ ·) ((l :: ls).map (lotCloseDate estDate)).dedup)
        0 := rfl

/-- The last element of a non-empty list, through `getD`. -/
theorem getLast?_eq_getD {α : Type} (dflt : α) :
    ∀ l : List α, l ≠ [] → l.getLast? = some (l.getD (l.length - 1) dflt) := by
  intro l
  induction l with
  | nil => intro h; exact absurd rfl h
  | cons a rest ih =>
    intro h
    cases rest with
    | nil => rfl
    | cons b t =>
      rw [List.getLast?_cons_cons, ih (by simp)]
      have e1 : (a :: b :: t).length - 1 = ((b :: t).length - 1) + 1 := by simp
      rw [e1, List.getD_cons_succ]

/-- Cumulative-total properties of `buildRows` starting from zero: rows
step by their daily value, and the last row carries the full total —
provided daily values are whole cents (so per-row rounding is the
identity) and the per-date map sums to `total` over the date list. -/
theorem buildRows_cumulative_props (acct : Option String) (f : ℤ → ℚ × ℕ)
    (ds : List ℤ) (total : ℚ)
    (hc : ∀ d : ℤ, IsCenti (f d).1)
    (hsum : (ds.map (fun d => (f d).1)).sum = total) :
    (∀ i : ℕ, i + 1 < (buildRows acct f ds 0).length →
       ((buildRows acct f ds 0).getD (i + 1) defaultRow).cumulative_pnl
         = ((buildRows acct f ds 0).getD i defaultRow).cumulative_pnl
           + ((buildRows acct f ds 0).getD (i + 1) defaultRow).daily_pnl) ∧
    (buildRows acct f ds 0 ≠ [] →
       (buildRows acct f ds 0).getLast?.map (fun r => r.cumulative_pnl)
         = some total) := by
  have hS : ∀ n : ℕ, IsCenti (((ds.take n).map (fun d => (f d).1)).sum) := by
    intro n
    apply isCenti_listSum
    intro x hx
    rw [List.mem_map] at hx
    obtain ⟨d, _, rfl⟩ := hx
    exact hc d
  constructor
  · intro i hi
    rw [buildRows_length] at hi
    have hi0 : i < ds.length := Nat.lt_of_succ_lt hi
    obtain ⟨c2, d2⟩ := buildRows_getD acct f ds 0 (i + 1) hi
    obtain ⟨c1, _⟩ := buildRows_getD acct f ds 0 i hi0
    rw [c2, c1, d2]
    rw [zero_add, zero_add, quantize2_centi (hS _), quantize2_centi (hS _),
      quantize2_centi (hc _)]
    exact takeSum_succ (fun d => (f d).1) ds (i + 1) hi
  · intro hne
    have hdsne : ds ≠ [] := by
      intro e
      apply hne
      rw [e]
      rfl
    have hlen0 : 0 < ds.length := List.length_pos.mpr hdsne
    have hbne : (buildRows acct f ds 0).length - 1 = ds.length - 1 := by
      rw [buildRows_length]
    have htot : IsCenti total := by
      rw [← hsum]
      simpa [List.take_length] using hS ds.length
    rw [getLast?_eq_getD defaultRow _ hne, hbne, Option.map_some']
    obtain ⟨c1, _⟩ := buildRows_getD acct f ds 0 (ds.length - 1) (by omega)
    rw [c1, zero_add, show ds.length - 1 + 1 = ds.length from by omega,
      List.take_length, hsum, quantize2_centi htot]

/-- C1: two BUYs of one symbol at different prices followed by a SELL
whose quantity covers both are matched earliest-first: the run emits
exactly two closed lots for that SELL, in order — the first consuming the
first BUY's full quantity, the second the second BUY's full quantity (the
remainder needed from it). -/
theorem C1_fifo_order (st : EngineState) (b1 b2 s : NormalizedTrade)
    (hs1 : b1.symbol = s.symbol) (hs2 : b2.symbol = s.symbol)
    (hd1 : b1.side = Side.BUY) (hd2 : b2.side = Side.BUY) (hd3 : s.side = Side.SELL)
    (hq1 : 0 < b1.quantity) (hq2 : 0 < b2.quantity)
    (hp : b1.price ≠ b2.price)
    (hq3 : b1.quantity + b2.quantity ≤ s.quantity) :
    (process_trades st [b1, b2, s]).2 =
      [create_closed_lot b1 s b1.quantity PosType.LONG,
       create_closed_lot b2 s b2.quantity PosType.LONG] := by
  have hS : 0 < s.quantity := lt_of_lt_of_le (by linarith) hq3
  have hm1 : min s.quantity b1.quantity = b1.quantity := min_eq_right (by linarith)
  have hm2 : min (s.quantity - b1.quantity) b2.quantity = b2.quantity :=
    min_eq_right (by linarith)
  have hS2 : 0 < s.quantity - b1.quantity := by linarith
  simp only [process_trades, List.foldl, process_trade, hd1, hd2, hd3, hs1, hs2,
    emptyEngineState, match_against_queue, if_pos hq1, if_pos hq2, if_pos hS,
    Function.update_same, List.nil_append, List.append_nil, hm1, hm2, sub_self,
    if_pos rfl, if_pos hS2]
  simp [apply_ite EngineState.closed_lots]

/-- Witness for C1: BUY 10@100, BUY 5@101, SELL 20@102 on one symbol
produce exactly the two expected lots, in order. -/
theorem C1_witness :
    (process_trades emptyEngineState [tradeB1, tradeB2, tradeS]).2 =
      [create_closed_lot tradeB1 tradeS tradeB1.quantity PosType.LONG,
       create_closed_lot tradeB2 tradeS tradeB2.quantity PosType.LONG] :=
  C1_fifo_order emptyEngineState tradeB1 tradeB2 tradeS rfl rfl rfl rfl rfl
    (by norm_num [tradeB1]) (by norm_num [tradeB2])
    (by norm_num [tradeB1, tradeB2]) (by norm_num [tradeB1, tradeB2, tradeS])

/-- C2: every lot the engine emits carries realized P&L equal to
`(close − open) × qty` for LONG and `(open − close) × qty` for SHORT,
rounded half-up to cents exactly once at lot creation; in particular
SELL 100@160 then BUY 100@150 gives one SHORT lot with P&L exactly 1000,
and BUY 3@100.33 then SELL 3@100.67 gives P&L exactly 1.02. -/
theorem C2_realized_pnl (st : EngineState) (trades : List NormalizedTrade) :
    (∀ lot ∈ (process_trades st trades).2,
       (lot.position_type = PosType.LONG →
          lot.realized_pnl =
            quantize2 ((lot.close_price - lot.open_price) * lot.open_quantity)) ∧
       (lot.position_type = PosType.SHORT →
          lot.realized_pnl =
            quantize2 ((lot.open_price - lot.close_price) * lot.open_quantity))) ∧
    (process_trades emptyEngineState [tradeSell160, tradeBuy150]).2.map
        (fun l => (l.position_type, l.realized_pnl)) = [(PosType.SHORT, 1000)] ∧
    (process_trades emptyEngineState [tradeRbuy, tradeRsell]).2.map
        (fun l => l.realized_pnl) = [1.02] := by
  refine ⟨?_, ?_, ?_⟩
  · exact foldl_preserves process_trade
      (fun st2 => ∀ lot ∈ st2.closed_lots, pnlFormulaOK lot)
      process_trade_pnl trades emptyEngineState (by simp [emptyEngineState])
  · norm_num [process_trades, process_trade, match_against_queue, emptyEngineState,
      Function.update, tradeSell160, tradeBuy150, create_closed_lot, quantize2,
      roundHalfUpAt]
  · norm_num [process_trades, process_trade, match_against_queue, emptyEngineState,
      Function.update, tradeRbuy, tradeRsell, create_closed_lot, quantize2,
      roundHalfUpAt]

/-- Witness for C2: the SHORT lot produced by SELL 100@160 then
BUY 100@150 satisfies the SHORT P&L formula. -/
theorem C2_witness :
    (create_closed_lot tradeSell160 tradeBuy150 100 PosType.SHORT).realized_pnl =
      quantize2 (((create_closed_lot tradeSell160 tradeBuy150 100 PosType.SHORT).open_price -
          (create_closed_lot tradeSell160 tradeBuy150 100 PosType.SHORT).close_price) *
        (create_closed_lot tradeSell160 tradeBuy150 100 PosType.SHORT).open_quantity) :=
  ((C2_realized_pnl emptyEngineState [tradeSell160, tradeBuy150]).1
    (create_closed_lot tradeSell160 tradeBuy150 100 PosType.SHORT)
    (by norm_num [process_trades, process_trade, match_against_queue, emptyEngineState,
        Function.update, tradeSell160, tradeBuy150])).2 rfl

/-- C3 (evaluation at the failing input): on a single losing lot the
claimed win rate is 0/1 = 0.0000, but `calculate_aggregates` renders
`win_rate` through `... if win_rate else None`, so the zero value is
dropped and the field is absent. -/
theorem C3_win_rate_dropped :
    (calculate_aggregates (fun _ => "Monday") none [loseLotC3] []).win_rate = none ∧
    (calculate_aggregates (fun _ => "Monday") none [loseLotC3] []).winning_lots = 0 ∧
    (calculate_aggregates (fun _ => "Monday") none [loseLotC3] []).total_lots_closed = 1 ∧
    (calculate_aggregates (fun _ => "Monday") none [loseLotC3] []).total_realized_pnl = -5 ∧
    quantize4 ((0 : ℚ) / 1) = 0 := by
  norm_num [calculate_aggregates, loseLotC3, exLot, round_if_truthy, quantize2, quantize4,
    roundHalfUpAt, firstOccurrences, symbolPnl, weekdayPnl, maxBySnd, minBySnd]

/-- C4 (evaluation at the failing input): on a single losing lot total
losses are −7.5 ≠ 0 and total gains are 0, so the claimed profit factor is
0.00; but `calculate_aggregates` renders `profit_factor` through
`... if profit_factor else None`, so the zero ratio is dropped and the
field is absent. -/
theorem C4_profit_factor_dropped :
    (calculate_aggregates (fun _ => "Monday") none [loseLotC4] []).profit_factor = none ∧
    (calculate_aggregates (fun _ => "Monday") none [loseLotC4] []).total_losses = -7.5 ∧
    quantize2 ((0 : ℚ) / |(-7.5 : ℚ)|) = 0 := by
  norm_num [calculate_aggregates, loseLotC4, exLot, round_if_truthy, quantize2,
    roundHalfUpAt, firstOccurrences, symbolPnl, weekdayPnl, maxBySnd, minBySnd]

/-- C5 (evaluation at the failing input): after a winning lot followed by
a breakeven lot the claim demands `current_streak = 0`, but
`calculate_streaks` only clears the two run counters on breakeven and
leaves `current_streak` at its previous value 1. -/
theorem C5_current_streak_not_reset :
    beLotC5.realized_pnl = 0 ∧
    winLotC5.close_executed_at < beLotC5.close_executed_at ∧
    (calculate_streaks [winLotC5, beLotC5]).current_streak = 1 ∧
    (calculate_streaks [winLotC5, beLotC5]).longest_win_streak = 1 ∧
    (calculate_streaks [winLotC5, beLotC5]).longest_loss_streak = 0 := by
  norm_num [calculate_streaks, sortLotsByClose, List.insertionSort, List.orderedInsert,
    closeLE, streakStep, winLotC5, beLotC5, exLot]

/-- C6: for closed lots whose P&L is whole cents (the `NUMERIC(18,2)`
value set of `realized_pnl`), every produced series satisfies
`cumulative[i] = cumulative[i−1] + daily[i]`, and the last row's
cumulative P&L equals the exact sum of all input lots' realized P&L. -/
theorem C6_cumulative_invariant (estDate : ℤ → ℤ) (acct : Option String)
    (lots : List ClosedLot) (fill_gaps : Bool)
    (h2 : ∀ lot ∈ lots, IsCenti lot.realized_pnl) :
    (∀ i : ℕ, i + 1 < (generate_daily_pnl_series estDate acct lots fill_gaps).length →
       ((generate_daily_pnl_series estDate acct lots fill_gaps).getD (i + 1) defaultRow).cumulative_pnl
         = ((generate_daily_pnl_series estDate acct lots fill_gaps).getD i defaultRow).cumulative_pnl
           + ((generate_daily_pnl_series estDate acct lots fill_gaps).getD (i + 1) defaultRow).daily_pnl) ∧
    (generate_daily_pnl_series estDate acct lots fill_gaps ≠ [] →
       (generate_daily_pnl_series estDate acct lots fill_gaps).getLast?.map
           (fun r => r.cumulative_pnl)
         = some ((lots.map (fun l => l.realized_pnl)).sum)) := by
  cases lots with
  | nil =>
    constructor
    · intro i hi
      simp [generate_daily_pnl_series] at hi
    · intro hne
      exact absurd rfl hne
  | cons l0 ls =>
    cases fill_gaps with
    | true =>
      rw [generate_cons]
      exact buildRows_cumulative_props acct _ _ _
        (fun d => dailyTotal_centi estDate (l0 :: ls) d h2)
        (sum_over_keys (lotCloseDate estDate) (l0 :: ls) _
          (nodup_dateRange _ _)
          (fun l hl => (mem_dateRange _ _ _).mpr
            ⟨listMinInt_le _ _ (List.mem_map_of_mem _ hl),
             le_listMaxInt _ _ (List.mem_map_of_mem _ hl)⟩))
    | false =>
      rw [generate_cons]
      exact buildRows_cumulative_props acct _ _ _
        (fun d => dailyTotal_centi estDate (l0 :: ls) d h2)
        (sum_over_keys (lotCloseDate estDate) (l0 :: ls) _
          ((List.perm_insertionSort _ _).nodup_iff.mpr (List.nodup_dedup _))
          (fun l hl => (List.perm_insertionSort _ _).mem_iff.mpr
            (List.mem_dedup.mpr (List.mem_map_of_mem _ hl))))

/-- Witness for C6: on lots of 1.50 (day 1) and 2.25 (day 3), row 1's
cumulative equals row 0's cumulative plus row 1's daily, and the last
row's cumulative is the lots' exact total. -/
theorem C6_witness :
    ((generate_daily_pnl_series (fun t => t) none [lotC6a, lotC6b] true).getD 1 defaultRow).cumulative_pnl
      = ((generate_daily_pnl_series (fun t => t) none [lotC6a, lotC6b] true).getD 0 defaultRow).cumulative_pnl
        + ((generate_daily_pnl_series (fun t => t) none [lotC6a, lotC6b] true).getD 1 defaultRow).daily_pnl ∧
    (generate_daily_pnl_series (fun t => t) none [lotC6a, lotC6b] true).getLast?.map
        (fun r => r.cumulative_pnl)
      = some (([lotC6a, lotC6b].map (fun l => l.realized_pnl)).sum) := by
  have h2 : ∀ lot ∈ [lotC6a, lotC6b], IsCenti lot.realized_pnl := by
    intro lot hl
    rcases List.mem_cons.mp hl with rfl | hl2
    · exact ⟨150, by norm_num [lotC6a, exLot]⟩
    · rcases List.mem_cons.mp hl2 with rfl | h3
      · exact ⟨225, by norm_num [lotC6b, exLot]⟩
      · simp at h3
  have hmain := C6_cumulative_invariant (fun t => t) none [lotC6a, lotC6b] true h2
  have hlen : (generate_daily_pnl_series (fun t => t) none [lotC6a, lotC6b] true).length = 3 := by
    rw [generate_cons, buildRows_length]
    norm_num [lotC6a, lotC6b, exLot, lotCloseDate, listMinInt, listMaxInt, dateRange]
    rfl
  refine ⟨hmain.1 0 (by rw [hlen]; norm_num), hmain.2 ?_⟩
  intro e
  rw [e] at hlen
  simp at hlen

/-- C7: with gap filling, the series dates of a non-empty lot set are
exactly the contiguous day range from the minimum to the maximum activity
date (both attained by some lot), rows on days with no lot carry zero
daily P&L and zero lots; concretely, lots of 1000 on day 1 and 500 on
day 3 give three rows with dates 1,2,3, day 2 having daily 0 and
cumulative 1000, day 3 cumulative 1500. -/
theorem C7_gap_filling (estDate : ℤ → ℤ) (acct : Option String)
    (lots : List ClosedLot) (hne : lots ≠ []) :
    ((generate_daily_pnl_series estDate acct lots true).map (fun r => r.date)
        = dateRange (listMinInt (lots.map (lotCloseDate estDate)))
            (listMaxInt (lots.map (lotCloseDate estDate)))) ∧
    (listMinInt (lots.map (lotCloseDate estDate)) ∈ lots.map (lotCloseDate estDate)) ∧
    (listMaxInt (lots.map (lotCloseDate estDate)) ∈ lots.map (lotCloseDate estDate)) ∧
    (∀ l ∈ lots,
       listMinInt (lots.map (lotCloseDate estDate)) ≤ lotCloseDate estDate l
         ∧ lotCloseDate estDate l ≤ listMaxInt (lots.map (lotCloseDate estDate))) ∧
    (∀ row ∈ generate_daily_pnl_series estDate acct lots true,
       (∀ l ∈ lots, lotCloseDate estDate l ≠ row.date) →
       row.daily_pnl = 0 ∧ row.lots_closed = 0) ∧
    ((generate_daily_pnl_series (fun t => t) none [lotC7a, lotC7b] true).map (fun r => r.date)
        = [1, 2, 3]) ∧
    (((generate_daily_pnl_series (fun t => t) none [lotC7a, lotC7b] true).getD 1 defaultRow).daily_pnl = 0) ∧
    (((generate_daily_pnl_series (fun t => t) none [lotC7a, lotC7b] true).getD 1 defaultRow).cumulative_pnl = 1000) ∧
    (((generate_daily_pnl_series (fun t => t) none [lotC7a, lotC7b] true).getD 2 defaultRow).cumulative_pnl = 1500) := by
  have hser : generate_daily_pnl_series (fun t => t) none [lotC7a, lotC7b] true =
      [⟨none, 1, 1000, 1000, 1⟩, ⟨none, 2, 0, 1000, 0⟩, ⟨none, 3, 500, 1500, 1⟩] := by
    norm_num [generate_daily_pnl_series, lotCloseDate, listMinInt, listMaxInt, dateRange,
      buildRows, dailyTotal, dailyCount, quantize2, roundHalfUpAt, lotC7a, lotC7b, exLot,
      List.range_succ]
  cases lots with
  | nil => exact absurd rfl hne
  | cons l0 ls =>
    refine ⟨?_, ?_, ?_, ?_, ?_, ?_, ?_, ?_, ?_⟩
    · rw [generate_cons]
      exact buildRows_map_date acct _ _ 0
    · exact listMinInt_mem _ (by simp)
    · exact listMaxInt_mem _ (by simp)
    · intro l hl
      exact ⟨listMinInt_le _ _ (List.mem_map_of_mem _ hl),
             le_listMaxInt _ _ (List.mem_map_of_mem _ hl)⟩
    · intro row hrow hnodate
      rw [generate_cons] at hrow
      have hmem := buildRows_mem acct _ _ 0 row hrow
      have hfil : (l0 :: ls).filter
          (fun l => lotCloseDate estDate l == row.date) = [] := by
        rw [List.filter_eq_nil_iff]
        intro l hl
        simpa using hnodate l hl
      have hdt : dailyTotal estDate (l0 :: ls) row.date = 0 := by
        rw [dailyTotal, hfil]
        rfl
      have hdc : dailyCount estDate (l0 :: ls) row.date = 0 := by
        rw [dailyCount, hfil]
        rfl
      constructor
      · rw [hmem.1]
        simp only [hdt]
        exact quantize2_centi ⟨0, by norm_num⟩
      · rw [hmem.2]
        simp only [hdc]
    · rw [hser]; rfl
    · rw [hser]; rfl
    · rw [hser]; rfl
    · rw [hser]; rfl

/-- Witness for C7: on the day-1/day-3 example, the series dates are the
contiguous range between the minimum and maximum activity dates. -/
theorem C7_witness :
    (generate_daily_pnl_series (fun t => t) none [lotC7a, lotC7b] true).map (fun r => r.date)
      = dateRange (listMinInt ([lotC7a, lotC7b].map (lotCloseDate (fun t => t))))
          (listMaxInt ([lotC7a, lotC7b].map (lotCloseDate (fun t => t)))) :=
  (C7_gap_filling (fun t => t) none [lotC7a, lotC7b] (by simp)).1

/-- C8: on empty inputs every stage returns a well-defined empty or
zero/absent result: no closed lots, an empty series, and the default
`Aggregate` record. -/
theorem C8_empty_inputs (st : EngineState) (estDate : ℤ → ℤ) (wd : ℤ → String)
    (acct : Option String) (fill_gaps : Bool) (per_day : List PerDayPnL) :
    (process_trades st []).2 = [] ∧
    generate_daily_pnl_series estDate acct [] fill_gaps = [] ∧
    calculate_aggregates wd acct [] per_day = emptyAggregate acct ∧
    (emptyAggregate acct).total_realized_pnl = 0 ∧
    (emptyAggregate acct).total_lots_closed = 0 ∧
    (emptyAggregate acct).total_gains = 0 ∧
    (emptyAggregate acct).total_losses = 0 ∧
    (emptyAggregate acct).win_rate = none ∧
    (emptyAggregate acct).profit_factor = none ∧
    (emptyAggregate acct).best_symbol = none ∧
    (emptyAggregate acct).first_trade_date = none :=
  ⟨rfl, rfl, rfl, rfl, rfl, rfl, rfl, rfl, rfl, rfl, rfl⟩

/-- C9: re-running the pipeline on the same trades — including on the very
engine state a first run left behind — yields identical closed lots,
series, and aggregates, because `process_trades` clears both queue maps
and the closed-lot list before processing. -/
theorem C9_pipeline_idempotent (st : EngineState) (trades : List NormalizedTrade)
    (estDate : ℤ → ℤ) (wd : ℤ → String) (acct : Option String) (fill_gaps : Bool) :
    (process_trades (process_trades st trades).1 trades).2 = (process_trades st trades).2 ∧
    generate_daily_pnl_series estDate acct
        (process_trades (process_trades st trades).1 trades).2 fill_gaps
      = generate_daily_pnl_series estDate acct (process_trades st trades).2 fill_gaps ∧
    calculate_aggregates wd acct (process_trades (process_trades st trades).1 trades).2
        (generate_daily_pnl_series estDate acct
          (process_trades (process_trades st trades).1 trades).2 fill_gaps)
      = calculate_aggregates wd acct (process_trades st trades).2
        (generate_daily_pnl_series estDate acct (process_trades st trades).2 fill_gaps) :=
  ⟨rfl, rfl, rfl⟩

/-- C10: starting from the cleared state `process_trades` establishes,
after any number of processed trades at most one of a symbol's two queues
is non-empty — both for the final state of a run and after each trade of
the run (the state after the first k trades). -/
theorem C10_queues_exclusive (st : EngineState) (trades : List NormalizedTrade) (sym : String) :
    ((process_trades st trades).1.long_queues sym = [] ∨
     (process_trades st trades).1.short_queues sym = []) ∧
    ∀ k : ℕ,
      ((trades.take k).foldl process_trade emptyEngineState).long_queues sym = [] ∨
      ((trades.take k).foldl process_trade emptyEngineState).short_queues sym = [] := by
  have key : ∀ l : List NormalizedTrade,
      queuesExclusive (l.foldl process_trade emptyEngineState) :=
    fun l => foldl_preserves process_trade queuesExclusive process_trade_exclusive l
      emptyEngineState (fun _ => Or.inl rfl)
  exact ⟨key trades sym, fun k => key (trades.take k) sym⟩
